import Mathlib

/-!
Verification development for the gene-prediction program `gpred.py`.

The program scans a nucleotide sequence for open reading frames.  Its core
is built from three pattern-search primitives over the sequence
(`find_start`, `find_stop`, `has_shine_dalgarno`), a greedy single-pass
scanning loop (`predict_genes`), and a two-strand combination step in
`main` (`reverse_complement`, coordinate remapping, per-part sort,
concatenation).  All of these are embedded below as executable Lean
functions over `List Char`, mirroring the Python source line by line:

* sequences are `List Char`; positions are 0-based `Nat` as in the source;
* the three scan parameters are `Int`, since the Python CLI parses them
  with `type=int` and nothing restricts their sign;
* the compiled regular expressions `AT[TG]|[ATCG]TG`, `TA[GA]|TGA` and
  `A?G?GAGG|GGAG|GG.{1}GG` are embedded as explicit tests on characters;
  every alternative of the start and stop patterns has length 3, so a
  regex match at a position is exactly a 3-character test there;
* `re.Pattern.finditer` yields non-overlapping matches in increasing
  position order, which the stream `finditerStops` reproduces;
* the `while` loop of `predict_genes` is embedded with an explicit fuel
  counter: `none` models a run that exceeds the fuel, and the fuel
  `length + 2` is proved sufficient whenever the loop terminates in the
  source (non-negative `min_gap`);
* Python's `complement[base]` dict lookup raises `KeyError(base)` on an
  unmapped symbol; the embedding returns `Except.error base` there.
-/

/-- The complement table `{'A': 'T', 'C': 'G', 'G': 'C', 'T': 'A'}` of
`reverse_complement`; `none` models a key that is absent from the dict. -/
def complementTable (c : Char) : Option Char :=
  if c = 'A' then some 'T'
  else if c = 'C' then some 'G'
  else if c = 'G' then some 'C'
  else if c = 'T' then some 'A'
  else none

/-- The list comprehension `[complement[base] for base in ...]`: elements are
looked up left to right and the first unmapped symbol raises `KeyError(base)`,
modelled as `Except.error base`. -/
def mapComplement : List Char → Except Char (List Char)
  | [] => Except.ok []
  | c :: rest =>
    match complementTable c with
    | none => Except.error c
    | some d =>
      match mapComplement rest with
      | Except.error e => Except.error e
      | Except.ok ds => Except.ok (d :: ds)

/-- `reverse_complement(sequence)`: complement each base of the reversed
sequence (`sequence[::-1]`); fails like the source on the first reversed
base that is not a key of the complement dict. -/
def reverse_complement (s : List Char) : Except Char (List Char) :=
  mapComplement s.reverse

/-- Whether the start-codon regex `AT[TG]|[ATCG]TG` matches at position `p`:
both alternatives have length 3, so a match is a 3-character test (and
requires all three characters to lie inside the sequence). -/
def startMatchAt (s : List Char) (p : Nat) : Bool :=
  decide
    ((s[p]? = some 'A' ∧ s[p + 1]? = some 'T' ∧
        (s[p + 2]? = some 'T' ∨ s[p + 2]? = some 'G')) ∨
      ((s[p]? = some 'A' ∨ s[p]? = some 'T' ∨ s[p]? = some 'C' ∨ s[p]? = some 'G') ∧
        s[p + 1]? = some 'T' ∧ s[p + 2]? = some 'G'))

/-- Whether the stop-codon regex `TA[GA]|TGA` matches at position `p`. -/
def stopMatchAt (s : List Char) (p : Nat) : Bool :=
  decide
    ((s[p]? = some 'T' ∧ s[p + 1]? = some 'A' ∧
        (s[p + 2]? = some 'G' ∨ s[p + 2]? = some 'A')) ∨
      (s[p]? = some 'T' ∧ s[p + 1]? = some 'G' ∧ s[p + 2]? = some 'A'))

/-- `find_start(start_regex, sequence, start, stop)`:
`start_regex.search(sequence, start, stop)` returns the leftmost match
position in `[start, stop)` whose 3 characters fit before `stop`. -/
def find_start (s : List Char) (start stop : Nat) : Option Nat :=
  (List.range' start (stop - start)).find? fun p =>
    decide (p + 3 ≤ stop) && startMatchAt s p

/-- The stream of match positions produced by
`stop_regex.finditer(sequence, start)`: non-overlapping matches scanned left
to right, each match consuming its 3 characters.  The fuel argument makes the
recursion structural; position grows by at least 1 per step, so fuel
`s.length + 1` (used by `finditerStops`) never runs out before the scan
leaves the sequence. -/
def stopSearchAux (s : List Char) : Nat → Nat → List Nat
  | 0, _ => []
  | fuel + 1, i =>
    if s.length ≤ i then []
    else if stopMatchAt s i then i :: stopSearchAux s fuel (i + 3)
    else stopSearchAux s fuel (i + 1)

/-- All match positions of `stop_regex.finditer(sequence, start)`. -/
def finditerStops (s : List Char) (start : Nat) : List Nat :=
  stopSearchAux s (s.length + 1) start

/-- `find_stop(stop_regex, sequence, start)`: the first `finditer` match
whose offset from `start` is a multiple of 3. -/
def find_stop (s : List Char) (start : Nat) : Option Nat :=
  (finditerStops s start).find? fun p => (p - start) % 3 == 0

/-- The alternatives of the Shine-Dalgarno regex `A?G?GAGG|GGAG|GG.{1}GG`,
as lists of character tokens (`none` is the wildcard `.`).  `A?G?GAGG`
expands to `GAGG`, `AGAGG`, `GGAGG`, `AGGAGG`. -/
def shinePats : List (List (Option Char)) :=
  [[some 'G', some 'A', some 'G', some 'G'],
   [some 'A', some 'G', some 'A', some 'G', some 'G'],
   [some 'G', some 'G', some 'A', some 'G', some 'G'],
   [some 'A', some 'G', some 'G', some 'A', some 'G', some 'G'],
   [some 'G', some 'G', some 'A', some 'G'],
   [some 'G', some 'G', none, some 'G', some 'G']]

/-- Whether a token pattern matches the characters of `s` starting at `p`. -/
def patMatchAt (s : List Char) : Nat → List (Option Char) → Bool
  | _, [] => true
  | p, t :: rest =>
    (match s[p]? with
     | some c =>
       match t with
       | none => true
       | some d => c == d
     | none => false) &&
      patMatchAt s (p + 1) rest

/-- Whether some alternative of the Shine-Dalgarno regex matches at `p` and
ends at or before `endpos` (the `endpos` argument of `re.Pattern.search`). -/
def shineHitAt (s : List Char) (endpos : Int) (p : Nat) : Bool :=
  shinePats.any fun pat => decide ((p : Int) + pat.length ≤ endpos) && patMatchAt s p pat

/-- `has_shine_dalgarno(shine_regex, sequence, start, max_shine_dalgarno_distance)`:
search the motif in `search(sequence, start - max_distance, start - 6)`,
returning `False` without searching when `start - max_distance < 0`. -/
def has_shine_dalgarno (s : List Char) (start : Nat) (maxDist : Int) : Bool :=
  let searchStart : Int := (start : Int) - maxDist
  let searchEnd : Int := (start : Int) - 6
  if searchStart < 0 then false
  else
    (List.range s.length).any fun p =>
      decide (searchStart ≤ (p : Int)) && shineHitAt s searchEnd p

/-- One iteration of the `while` loop of `predict_genes`, from cursor `pos`:
`none` means the loop ends there (its condition
`sequence_len - current_position >= min_gap` is false, or `find_start`
returned `None` and the loop `break`s); `some (pos', g)` means the iteration
moves the cursor to `pos'`, appending the accepted gene `g` if any.
`pos.toNat` reflects `re.Pattern.search` clamping a negative `pos` to 0.
Per the source, a found stop position participates in
`if stop_pos and (stop_pos - start_pos >= min_gene_len)`, where both `None`
and `0` are falsy. -/
def predictStep (s : List Char) (minGeneLen maxDist minGap : Int) (pos : Int) :
    Option (Int × Option (Int × Int)) :=
  if (s.length : Int) - pos ≥ minGap then
    match find_start s pos.toNat s.length with
    | none => none
    | some startPos =>
      match find_stop s startPos with
      | some stopPos =>
        if stopPos ≠ 0 ∧ (stopPos : Int) - (startPos : Int) ≥ minGeneLen then
          if has_shine_dalgarno s startPos maxDist then
            some ((stopPos : Int) + 3 + minGap,
              some ((startPos : Int) + 1, (stopPos : Int) + 3))
          else some (pos + 1, none)
        else some (pos + 1, none)
      | none => some (pos + 1, none)
  else none

/-- The `while` loop of `predict_genes`, iterated at most `fuel` times;
`acc` is the accumulator `predicted_genes`.  `none` models running out of
fuel, i.e. a source run that does not terminate within `fuel` iterations. -/
def predictLoop (s : List Char) (minGeneLen maxDist minGap : Int) :
    Nat → Int → List (Int × Int) → Option (List (Int × Int))
  | 0, pos, acc =>
    match predictStep s minGeneLen maxDist minGap pos with
    | none => some acc
    | some _ => none
  | fuel + 1, pos, acc =>
    match predictStep s minGeneLen maxDist minGap pos with
    | none => some acc
    | some (pos', g) =>
      predictLoop s minGeneLen maxDist minGap fuel pos'
        (match g with
         | some gene => acc ++ [gene]
         | none => acc)

/-- `predict_genes(sequence, ..., min_gene_len, max_shine_dalgarno_distance,
min_gap)`: run the scan loop from `current_position = 0` with the empty
accumulator.  Fuel `s.length + 2` is proved sufficient below whenever
`min_gap ≥ 0` (the cursor strictly increases and the loop exits once the
cursor passes the sequence), so `none` only arises for parameter values on
which the source loop itself does not terminate. -/
def predict_genes (s : List Char) (minGeneLen maxDist minGap : Int) :
    Option (List (Int × Int)) :=
  predictLoop s minGeneLen maxDist minGap (s.length + 2) 0 []

/-- The consecutive-interval relation maintained by the scan when
`min_gap ≥ 0`: strictly increasing starts, no overlap, and an inter-gene gap
of at least `minGap`. -/
def stepRel (minGap : Int) (a b : Int × Int) : Prop :=
  a.1 < b.1 ∧ a.2 < b.1 ∧ minGap ≤ b.1 - a.2 - 1

/-- Python's `list.sort()` comparison on two-element lists `[start, stop]`:
lexicographic order on the pairs.  This order is total and antisymmetric, so
the sorted rearrangement of a list is unique and any sorting algorithm
computes exactly what `genes_cor.sort()` computes; the embedding uses
insertion sort because it reduces inside the kernel. -/
def pairLexLe (a b : Int × Int) : Prop :=
  a.1 < b.1 ∨ (a.1 = b.1 ∧ a.2 ≤ b.2)

instance : DecidableRel pairLexLe := fun a b =>
  inferInstanceAs (Decidable (a.1 < b.1 ∨ (a.1 = b.1 ∧ a.2 ≤ b.2)))

instance : IsTotal (Int × Int) pairLexLe :=
  ⟨fun a b => by
    by_cases h1 : a.1 < b.1
    · exact Or.inl (Or.inl h1)
    · by_cases h2 : b.1 < a.1
      · exact Or.inr (Or.inl h2)
      · have he : a.1 = b.1 := le_antisymm (not_lt.mp h2) (not_lt.mp h1)
        by_cases h3 : a.2 ≤ b.2
        · exact Or.inl (Or.inr ⟨he, h3⟩)
        · exact Or.inr (Or.inr ⟨he.symm, le_of_not_le h3⟩)⟩

instance : IsTrans (Int × Int) pairLexLe :=
  ⟨fun a b c hab hbc => by
    rcases hab with h1 | ⟨e1, l1⟩
    · rcases hbc with h2 | ⟨e2, l2⟩
      · exact Or.inl (h1.trans h2)
      · exact Or.inl (e2 ▸ h1)
    · rcases hbc with h2 | ⟨e2, l2⟩
      · exact Or.inl (e1 ▸ h2)
      · exact Or.inr ⟨e1.trans e2, l1.trans l2⟩⟩

/-- The remapping of a reverse-strand gene `[start, end]` into forward
coordinates, `[len(sequence) - end + 1, len(sequence) - start + 1]`. -/
def remapReverse (len : Int) (g : Int × Int) : Int × Int :=
  (len - g.2 + 1, len - g.1 + 1)

/-- The combined two-strand prediction of `main`: predict on the sequence,
predict on its reverse complement, remap the reverse predictions
(`genes_cor`), sort **only** `genes_cor` (`genes_cor.sort()`), and return
`all_genes = genes + genes_cor`.  `none` models a failing run (a
non-terminating scan or a `KeyError` from `reverse_complement`). -/
def mainGenes (s : List Char) (minGeneLen maxDist minGap : Int) :
    Option (List (Int × Int)) :=
  match predict_genes s minGeneLen maxDist minGap with
  | none => none
  | some genes =>
    match reverse_complement s with
    | Except.error _ => none
    | Except.ok sRc =>
      match predict_genes sRc minGeneLen maxDist minGap with
      | none => none
      | some genesRc =>
        some (genes ++
          List.insertionSort pairLexLe (genesRc.map (remapReverse (s.length : Int))))

/-- The sequence of the spec's "rejection without upstream motif" scenario:
a start codon at position 0 with an in-frame stop at position 6. -/
def seqATG : List Char := "ATGAAATAG".toList

/-- A 40-base sequence that is its own reverse complement and carries one
accepted gene per strand: `GGAG` at 10 is the upstream motif for the start
codon at 20 with in-frame stop at 23 (and the same layout on the reverse
strand, which is the same string). -/
def seqPalindrome : List Char :=
  "TTACATGGGGGGCTCCGGGGCCCCGGAGCCCCCCATGTAA".toList

/-- A 31-base sequence on which, with `min_gap = -1`, the scan accepts two
gene intervals that overlap at one position: `GGAG` motifs at 10 and 15,
a first gene `ATG`(20)…`TAA`(23), and a second start codon at 25 overlapping
the first stop codon, with stop at 28. -/
def seqOverlap : List Char :=
  "CCCCCCCCCCGGAGCGGAGCATGTAATGTAA".toList

/-- A 47-base sequence on which, with `min_gap = 0`, the scan accepts two
disjoint genes: the two cassettes of `seqOverlap` (but only the first is
accepted, since the cursor jumps past the second start codon) plus a third
cassette `GGAG`(31) / `ATG`(41) / `TAA`(44). -/
def seqTwoGenes : List Char :=
  "CCCCCCCCCCGGAGCGGAGCATGTAATGTAAGGAGCCCCCCATGTAA".toList

/-- Total version of the complement table, used to state what
`reverse_complement` computes on valid sequences (on an invalid symbol it
returns the symbol itself, a value never used on the success path). -/
def complChar (c : Char) : Char :=
  (complementTable c).getD c

/-- A stop-codon match needs all three of its characters inside the sequence. -/
theorem stopMatchAt_length {s : List Char} {p : Nat} (h : stopMatchAt s p = true) :
    p + 3 ≤ s.length := by
  rw [stopMatchAt, decide_eq_true_iff] at h
  have h2 : ∃ c, s[p + 2]? = some c := by tauto
  rcases h2 with ⟨c, hc⟩
  rw [List.getElem?_eq_some_iff] at hc
  rcases hc with ⟨hlt, -⟩
  omega

/-- The second character of a stop codon is never `T`, so no stop-codon match
starts one position after another stop-codon match. -/
theorem stopMatchAt_add_one {s : List Char} {p : Nat} (h : stopMatchAt s p = true)
    (h2 : stopMatchAt s (p + 1) = true) : False := by
  rw [stopMatchAt, decide_eq_true_iff] at h h2
  have hAG : s[p + 1]? = some 'A' ∨ s[p + 1]? = some 'G' := by tauto
  have hT : s[p + 1]? = some 'T' := by
    rcases h2 with ⟨hT, _⟩ | ⟨hT, _⟩ <;> exact hT
  rcases hAG with hAG | hAG <;>
    exact absurd (Option.some.inj (hAG.symm.trans hT)) (by decide)

/-- The third character of a stop codon is never `T`, so no stop-codon match
starts two positions after another stop-codon match. -/
theorem stopMatchAt_add_two {s : List Char} {p : Nat} (h : stopMatchAt s p = true)
    (h2 : stopMatchAt s (p + 2) = true) : False := by
  rw [stopMatchAt, decide_eq_true_iff] at h h2
  have hGA : s[p + 2]? = some 'G' ∨ s[p + 2]? = some 'A' := by tauto
  have hT : s[p + 2]? = some 'T' := by
    rcases h2 with ⟨hT, _⟩ | ⟨hT, _⟩ <;> exact hT
  rcases hGA with hGA | hGA <;>
    exact absurd (Option.some.inj (hGA.symm.trans hT)) (by decide)

/-- Stop-codon matches never overlap: two distinct matches are at least three
positions apart.  This is why `finditer`'s non-overlapping scan sees every
stop-codon occurrence. -/
theorem stopMatchAt_gap {s : List Char} {p q : Nat} (hp : stopMatchAt s p = true)
    (hq : stopMatchAt s q = true) (hpq : p < q) : p + 3 ≤ q := by
  by_contra hcon
  have : q = p + 1 ∨ q = p + 2 := by omega
  rcases this with rfl | rfl
  · exact stopMatchAt_add_one hp hq
  · exact stopMatchAt_add_two hp hq

/-- What a successful `find_start` returns: a start-codon match inside the
searched window. -/
theorem find_start_eq_some {s : List Char} {a b p : Nat}
    (h : find_start s a b = some p) :
    a ≤ p ∧ p + 3 ≤ b ∧ startMatchAt s p = true := by
  have hm := List.mem_of_find?_eq_some h
  have hp := List.find?_some h
  rw [List.mem_range'_1] at hm
  rw [Bool.and_eq_true, decide_eq_true_iff] at hp
  exact ⟨hm.1, hp.1, hp.2⟩

/-- An empty search window finds no start codon. -/
theorem find_start_eq_none_of_le {s : List Char} {a b : Nat} (h : b ≤ a) :
    find_start s a b = none := by
  rw [find_start, Nat.sub_eq_zero_of_le h]
  rfl

/-- Every position in the `finditer` stream is at least the scan origin and
carries a stop-codon match. -/
theorem stopSearchAux_mem {s : List Char} :
    ∀ {fuel i q : Nat}, q ∈ stopSearchAux s fuel i → i ≤ q ∧ stopMatchAt s q = true := by
  intro fuel
  induction fuel with
  | zero => intro i q h; simp [stopSearchAux] at h
  | succ n ih =>
    intro i q h
    rw [stopSearchAux] at h
    split at h
    · simp at h
    · split at h
      · rcases List.mem_cons.mp h with rfl | h2
        · exact ⟨le_refl _, by assumption⟩
        · have h3 := ih h2
          exact ⟨by omega, h3.2⟩
      · have h3 := ih h
        exact ⟨by omega, h3.2⟩

/-- Completeness of the `finditer` stream: since stop-codon matches cannot
overlap, the non-overlapping scan reaches every stop-codon occurrence at or
after the origin, given enough fuel. -/
theorem stopSearchAux_complete {s : List Char} {q : Nat}
    (hq : stopMatchAt s q = true) :
    ∀ {fuel i : Nat}, i ≤ q → s.length < i + fuel → q ∈ stopSearchAux s fuel i := by
  have hqlen := stopMatchAt_length hq
  intro fuel
  induction fuel with
  | zero => intro i hiq hfuel; omega
  | succ n ih =>
    intro i hiq hfuel
    rw [stopSearchAux]
    split
    · omega
    · split
      · rcases Nat.eq_or_lt_of_le hiq with rfl | hlt
        · exact List.mem_cons_self _ _
        · refine List.mem_cons_of_mem _ (ih ?_ ?_)
          · exact stopMatchAt_gap (by assumption) hq hlt
          · omega
      · have hne : i ≠ q := by
          rintro rfl
          exact absurd hq (by simp_all)
        exact ih (by omega) (by omega)

/-- The `finditer` stream is strictly increasing. -/
theorem stopSearchAux_pairwise {s : List Char} :
    ∀ {fuel i : Nat}, List.Pairwise (· < ·) (stopSearchAux s fuel i) := by
  intro fuel
  induction fuel with
  | zero => intro i; simp [stopSearchAux]
  | succ n ih =>
    intro i
    rw [stopSearchAux]
    split
    · simp
    · split
      · rw [List.pairwise_cons]
        refine ⟨fun q hq => ?_, ih⟩
        have := stopSearchAux_mem hq
        omega
      · exact ih

/-- On a strictly increasing list, `find?` returns the least element
satisfying the predicate. -/
theorem find?_min_of_pairwise {l : List Nat} {pred : Nat → Bool} {p q : Nat}
    (hsort : List.Pairwise (· < ·) l) (h : l.find? pred = some p)
    (hq : q ∈ l) (hpred : pred q = true) : p ≤ q := by
  induction l with
  | nil => simp at h
  | cons a t ih =>
    rw [List.pairwise_cons] at hsort
    rw [List.find?_cons] at h
    rcases hpa : pred a with hf | ht
    · rw [hpa] at h
      rcases List.mem_cons.mp hq with rfl | hq2
      · rw [hpred] at hpa
        exact absurd hpa (by simp)
      · exact ih hsort.2 h hq2
    · rw [hpa] at h
      injection h with h
      subst h
      rcases List.mem_cons.mp hq with rfl | hq2
      · exact le_refl _
      · exact le_of_lt (hsort.1 q hq2)

/-- What a successful `find_stop` returns: the least position at or after
`start` holding a stop-codon match in the same reading frame as `start`. -/
theorem find_stop_eq_some {s : List Char} {start p : Nat}
    (h : find_stop s start = some p) :
    start ≤ p ∧ stopMatchAt s p = true ∧ (p - start) % 3 = 0 ∧
      ∀ q, start ≤ q → stopMatchAt s q = true → (q - start) % 3 = 0 → p ≤ q := by
  have hm := List.mem_of_find?_eq_some h
  have hmm := stopSearchAux_mem hm
  have hp := List.find?_some h
  rw [beq_iff_eq] at hp
  refine ⟨hmm.1, hmm.2, hp, ?_⟩
  intro q hq hstop hmod
  have hqlen := stopMatchAt_length hstop
  have hqmem : q ∈ finditerStops s start :=
    stopSearchAux_complete hstop hq (by omega)
  exact find?_min_of_pairwise stopSearchAux_pairwise h hqmem (by rw [beq_iff_eq]; exact hmod)

/-- When `find_stop` fails there is no in-frame stop-codon match at or after
`start`. -/
theorem find_stop_eq_none {s : List Char} {start : Nat}
    (h : find_stop s start = none) :
    ∀ q, start ≤ q → stopMatchAt s q = true → (q - start) % 3 ≠ 0 := by
  intro q hq hstop hmod
  have hqlen := stopMatchAt_length hstop
  have hqmem : q ∈ finditerStops s start :=
    stopSearchAux_complete hstop hq (by omega)
  rw [find_stop, List.find?_eq_none] at h
  exact h q hqmem (by rw [beq_iff_eq]; exact hmod)

/-- No Shine-Dalgarno alternative can end at or before a negative `endpos`. -/
theorem shineHitAt_eq_false (s : List Char) (endpos : Int) (p : Nat)
    (h : endpos < 0) : shineHitAt s endpos p = false := by
  rw [shineHitAt, List.any_eq_false]
  intro pat _ hcontra
  rw [Bool.and_eq_true, decide_eq_true_iff] at hcontra
  have h0 : (0 : Int) ≤ (p : Int) + (pat.length : Int) := by positivity
  omega

/-- Every alternative of the Shine-Dalgarno regex is at least 4 symbols long. -/
theorem shinePats_min_length : ∀ pat ∈ shinePats, 4 ≤ pat.length := by decide

/-- With `max_shine_dalgarno_distance ≤ 9` the search window
`[start - maxDist, start - 6)` is too short for any motif alternative (or the
negative-window guard fires), so `has_shine_dalgarno` is always false. -/
theorem has_shine_dalgarno_of_short {s : List Char} {start : Nat} {maxDist : Int}
    (h : maxDist ≤ 9) : has_shine_dalgarno s start maxDist = false := by
  rw [has_shine_dalgarno]
  split
  · rfl
  · rw [List.any_eq_false]
    intro p _ hcontra
    rw [Bool.and_eq_true, decide_eq_true_iff] at hcontra
    obtain ⟨h1, h2⟩ := hcontra
    rw [shineHitAt, List.any_eq_true] at h2
    obtain ⟨pat, hpat, hmatch⟩ := h2
    rw [Bool.and_eq_true, decide_eq_true_iff] at hmatch
    have h4 := shinePats_min_length pat hpat
    have h5 : (4 : Int) ≤ (pat.length : Int) := by exact_mod_cast h4
    omega

/-- A start codon at a position below 6 has no room for an upstream motif:
the window end `start - 6` is negative, so `has_shine_dalgarno` is false for
every `maxDist` (either the guard fires or the window is empty). -/
theorem has_shine_dalgarno_of_small_start {s : List Char} {start : Nat}
    {maxDist : Int} (h : start ≤ 5) : has_shine_dalgarno s start maxDist = false := by
  rw [has_shine_dalgarno]
  split
  · rfl
  · rw [List.any_eq_false]
    intro p _ hcontra
    rw [Bool.and_eq_true, decide_eq_true_iff] at hcontra
    obtain ⟨h1, h2⟩ := hcontra
    rw [shineHitAt, List.any_eq_true] at h2
    obtain ⟨pat, hpat, hmatch⟩ := h2
    rw [Bool.and_eq_true, decide_eq_true_iff] at hmatch
    have h5 : (0 : Int) ≤ (p : Int) + (pat.length : Int) := by positivity
    have h6 : (start : Int) ≤ 5 := by exact_mod_cast h
    omega

/-- Case analysis of one loop iteration: when the loop body runs, it either
rejects the candidate and advances the cursor by one, or accepts a gene
`[startPos + 1, stopPos + 3]` and advances the cursor to
`stopPos + 3 + minGap`. -/
theorem predictStep_elim {s : List Char} {mgl maxd mgap pos pos' : Int}
    {g : Option (Int × Int)}
    (h : predictStep s mgl maxd mgap pos = some (pos', g)) :
    mgap ≤ (s.length : Int) - pos ∧
      ((g = none ∧ pos' = pos + 1) ∨
        (∃ a b : Nat,
          find_start s pos.toNat s.length = some a ∧ find_stop s a = some b ∧
            b ≠ 0 ∧ mgl ≤ (b : Int) - (a : Int) ∧
            has_shine_dalgarno s a maxd = true ∧
            pos' = (b : Int) + 3 + mgap ∧ g = some ((a : Int) + 1, (b : Int) + 3))) := by
  rw [predictStep] at h
  split at h
  case isFalse => exact absurd h (by simp)
  case isTrue hcond =>
    refine ⟨hcond, ?_⟩
    split at h
    case h_1 => exact absurd h (by simp)
    case h_2 a ha =>
      split at h
      case h_2 => -- find_stop returned none: reject
        injection h with h
        rw [Prod.mk.injEq] at h
        exact Or.inl ⟨h.2.symm, h.1.symm⟩
      case h_1 b hb =>
        split at h
        case isFalse => -- stop falsy or gap below min_gene_len: reject
          injection h with h
          rw [Prod.mk.injEq] at h
          exact Or.inl ⟨h.2.symm, h.1.symm⟩
        case isTrue hguard =>
          split at h
          case isFalse => -- no Shine-Dalgarno motif: reject
            injection h with h
            rw [Prod.mk.injEq] at h
            exact Or.inl ⟨h.2.symm, h.1.symm⟩
          case isTrue hshine =>
            injection h with h
            rw [Prod.mk.injEq] at h
            exact Or.inr ⟨a, b, ha, hb, hguard.1, hguard.2, hshine, h.1.symm, h.2.symm⟩

/-- An iteration that accepts a gene: the gene's coordinates, frame and
length constraints, and the new cursor. -/
theorem predictStep_gene {s : List Char} {mgl maxd mgap pos pos' : Int}
    {gene : Int × Int}
    (h : predictStep s mgl maxd mgap pos = some (pos', some gene)) :
    ∃ a b : Nat,
      gene = ((a : Int) + 1, (b : Int) + 3) ∧ pos ≤ (a : Int) ∧ a ≤ b ∧ b ≠ 0 ∧
        (b - a) % 3 = 0 ∧ mgl ≤ (b : Int) - (a : Int) ∧ pos' = (b : Int) + 3 + mgap := by
  rcases (predictStep_elim h).2 with ⟨hnone, -⟩ | ⟨a, b, ha, hb, hb0, hlen, -, hpos, hg⟩
  · exact absurd hnone (by simp)
  · have hfs := find_start_eq_some ha
    have hst := find_stop_eq_some hb
    have hpos_a : pos ≤ (a : Int) := by
      have h1 := Int.self_le_toNat pos
      have h2 : (pos.toNat : Int) ≤ (a : Int) := by exact_mod_cast hfs.1
      omega
    injection hg with hg
    exact ⟨a, b, hg, hpos_a, hst.1, hb0, hst.2.2.1, hlen, hpos⟩

/-- An iteration that rejects its candidate advances the cursor by one. -/
theorem predictStep_reject {s : List Char} {mgl maxd mgap pos pos' : Int}
    (h : predictStep s mgl maxd mgap pos = some (pos', none)) : pos' = pos + 1 := by
  rcases (predictStep_elim h).2 with ⟨-, hpos⟩ | ⟨a, b, -, -, -, -, -, -, hg⟩
  · exact hpos
  · exact absurd hg (by simp)

/-- With non-negative `min_gap` the cursor strictly increases on every loop
iteration (by one on rejection, to `stopPos + 3 + minGap` on acceptance). -/
theorem predictStep_lt {s : List Char} {mgl maxd mgap pos pos' : Int}
    {g : Option (Int × Int)} (hmgap : 0 ≤ mgap)
    (h : predictStep s mgl maxd mgap pos = some (pos', g)) : pos < pos' := by
  rcases g with _ | gene
  · rw [predictStep_reject h]; omega
  · obtain ⟨a, b, -, hpa, hab, -, -, -, hpos⟩ := predictStep_gene h
    have : (a : Int) ≤ (b : Int) := by exact_mod_cast hab
    omega

/-- Once the cursor has passed the end of the sequence, `find_start` has an
empty window and the loop stops (for any parameter values). -/
theorem predictStep_none_of_past {s : List Char} {mgl maxd mgap pos : Int}
    (h : (s.length : Int) < pos) : predictStep s mgl maxd mgap pos = none := by
  rw [predictStep]
  split
  · have hle : s.length ≤ pos.toNat := by omega
    rw [find_start_eq_none_of_le hle]
  · rfl

/-- Every gene in a completed scan's output was in the initial accumulator or
was accepted by some loop iteration. -/
theorem predictLoop_mem_src {s : List Char} {mgl maxd mgap : Int} :
    ∀ {fuel : Nat} {pos : Int} {acc out : List (Int × Int)},
      predictLoop s mgl maxd mgap fuel pos acc = some out →
      ∀ g ∈ out, g ∈ acc ∨
        ∃ pos0 pos' : Int, predictStep s mgl maxd mgap pos0 = some (pos', some g) := by
  intro fuel
  induction fuel with
  | zero =>
    intro pos acc out h g hg
    rw [predictLoop] at h
    split at h
    · injection h with h; subst h; exact Or.inl hg
    · exact absurd h (by simp)
  | succ n ih =>
    intro pos acc out h g hg
    rw [predictLoop] at h
    split at h
    · injection h with h; subst h; exact Or.inl hg
    case h_2 pos' g' hstep =>
      rcases g' with - | gene
      · exact ih h g hg
      · rcases ih h g hg with hmem | hex
        · rcases List.mem_append.mp hmem with h1 | h2
          · exact Or.inl h1
          · rw [List.mem_singleton] at h2
            subst h2
            exact Or.inr ⟨pos, pos', hstep⟩
        · exact Or.inr hex

/-- Loop invariant for the ordering properties: if every accumulated gene
ends at least `minGap` before the cursor, a completed scan extends the
accumulator's chain. -/
theorem predictLoop_chain {s : List Char} {mgl maxd mgap : Int} (hmgap : 0 ≤ mgap) :
    ∀ {fuel : Nat} {pos : Int} {acc out : List (Int × Int)},
      predictLoop s mgl maxd mgap fuel pos acc = some out →
      List.Chain' (stepRel mgap) acc →
      (∀ g ∈ acc, g.2 + mgap ≤ pos ∧ g.1 + 2 ≤ g.2) →
      List.Chain' (stepRel mgap) out := by
  intro fuel
  induction fuel with
  | zero =>
    intro pos acc out h hchain hinv
    rw [predictLoop] at h
    split at h
    · injection h with h; subst h; exact hchain
    · exact absurd h (by simp)
  | succ n ih =>
    intro pos acc out h hchain hinv
    rw [predictLoop] at h
    split at h
    · injection h with h; subst h; exact hchain
    case h_2 pos' g' hstep =>
      rcases g' with - | gene
      · have hpos' : pos' = pos + 1 := predictStep_reject hstep
        refine ih h hchain fun g hg => ?_
        have := hinv g hg
        exact ⟨by omega, this.2⟩
      · obtain ⟨a, b, hgene, hpa, hab, -, -, -, hpos'⟩ := predictStep_gene hstep
        have hab' : (a : Int) ≤ (b : Int) := by exact_mod_cast hab
        refine ih h ?_ ?_
        · rw [List.chain'_append]
          refine ⟨hchain, List.chain'_singleton _, ?_⟩
          intro x hx y hy
          rw [List.head?_cons, Option.mem_def, Option.some.injEq] at hy
          subst hy
          have hxacc : x ∈ acc := List.mem_of_mem_getLast? hx
          have hxinv := hinv x hxacc
          rw [hgene, stepRel]
          constructor
          · omega
          · constructor
            · omega
            · omega
        · intro g hg
          rcases List.mem_append.mp hg with h1 | h2
          · have := hinv g h1
            exact ⟨by omega, this.2⟩
          · rw [List.mem_singleton] at h2
            subst h2
            rw [hgene]
            exact ⟨by omega, by omega⟩

/-- With non-negative `min_gap`, fuel exceeding `length - pos` is enough for
the scan to finish: the cursor strictly increases, and once it passes the
sequence the loop stops. -/
theorem predictLoop_total {s : List Char} {mgl maxd mgap : Int} (hmgap : 0 ≤ mgap) :
    ∀ {fuel : Nat} {pos : Int} {acc : List (Int × Int)},
      (s.length : Int) < pos + fuel →
      ∃ out, predictLoop s mgl maxd mgap fuel pos acc = some out := by
  intro fuel
  induction fuel with
  | zero =>
    intro pos acc hfuel
    rw [predictLoop, predictStep_none_of_past (by omega)]
    exact ⟨acc, rfl⟩
  | succ n ih =>
    intro pos acc hfuel
    rw [predictLoop]
    rcases hstep : predictStep s mgl maxd mgap pos with - | pr
    · exact ⟨acc, rfl⟩
    · obtain ⟨pos', g'⟩ := pr
      have hlt := predictStep_lt hmgap hstep
      exact ih (by omega)

/-- If no found start codon ever has an upstream Shine-Dalgarno motif, the
scan only ever rejects, terminates, and returns its accumulator unchanged
(for arbitrary parameter values). -/
theorem predictLoop_no_accept {s : List Char} {mgl maxd mgap : Int}
    (hns : ∀ a : Nat, startMatchAt s a = true → has_shine_dalgarno s a maxd = false) :
    ∀ {fuel : Nat} {pos : Int} {acc : List (Int × Int)},
      (s.length : Int) < pos + fuel →
      predictLoop s mgl maxd mgap fuel pos acc = some acc := by
  intro fuel
  induction fuel with
  | zero =>
    intro pos acc hfuel
    rw [predictLoop, predictStep_none_of_past (by omega)]
  | succ n ih =>
    intro pos acc hfuel
    rw [predictLoop]
    rcases hstep : predictStep s mgl maxd mgap pos with - | pr
    · rfl
    · obtain ⟨pos', g'⟩ := pr
      have hg' : g' = none ∧ pos' = pos + 1 := by
        rcases (predictStep_elim hstep).2 with hrej | ⟨a, b, ha, -, -, -, hshine, -, -⟩
        · exact hrej
        · have := (find_start_eq_some ha).2.2
          rw [hns a this] at hshine
          exact absurd hshine (by simp)
      obtain ⟨rfl, rfl⟩ := hg'
      exact ih (by omega)

/-- Every gene interval produced by `predict_genes` is `[a + 1, b + 3]` for a
start position `a` and an in-frame stop position `b ≥ a` that passed the
length test. -/
theorem predict_genes_sound {s : List Char} {mgl maxd mgap : Int}
    {out : List (Int × Int)} (h : predict_genes s mgl maxd mgap = some out) :
    ∀ g ∈ out, ∃ a b : Nat,
      g = ((a : Int) + 1, (b : Int) + 3) ∧ a ≤ b ∧ b ≠ 0 ∧ (b - a) % 3 = 0 ∧
        mgl ≤ (b : Int) - (a : Int) := by
  intro g hg
  rcases predictLoop_mem_src h g hg with hmem | ⟨pos0, pos', hstep⟩
  · exact absurd hmem (by simp)
  · obtain ⟨a, b, hgene, -, hab, hb0, hmod, hlen, -⟩ := predictStep_gene hstep
    exact ⟨a, b, hgene, hab, hb0, hmod, hlen⟩

/-- The list produced by `predict_genes` with non-negative `min_gap` is a
chain for the ordering relation. -/
theorem predict_genes_chain {s : List Char} {mgl maxd mgap : Int} (hmgap : 0 ≤ mgap)
    {out : List (Int × Int)} (h : predict_genes s mgl maxd mgap = some out) :
    List.Chain' (stepRel mgap) out :=
  predictLoop_chain hmgap h List.chain'_nil (by simp)

/-- With non-negative `min_gap`, `predict_genes` always terminates within its
`length + 2` iteration budget. -/
theorem predict_genes_total {s : List Char} {mgl maxd mgap : Int} (hmgap : 0 ≤ mgap) :
    ∃ out, predict_genes s mgl maxd mgap = some out :=
  predictLoop_total hmgap (by push_cast; omega)

/-- A start-codon match needs all three of its characters inside the
sequence. -/
theorem startMatchAt_length {s : List Char} {p : Nat} (h : startMatchAt s p = true) :
    p + 3 ≤ s.length := by
  rw [startMatchAt, decide_eq_true_iff] at h
  have h2 : ∃ c, s[p + 2]? = some c := by tauto
  rcases h2 with ⟨c, hc⟩
  rw [List.getElem?_eq_some_iff] at hc
  rcases hc with ⟨hlt, -⟩
  omega

/-- On a list of mapped symbols, the complement comprehension succeeds and
complements pointwise. -/
theorem mapComplement_eq_ok {l : List Char}
    (h : ∀ c ∈ l, (complementTable c).isSome = true) :
    mapComplement l = Except.ok (l.map complChar) := by
  induction l with
  | nil => rfl
  | cons c rest ih =>
    have hc := h c (List.mem_cons_self c rest)
    rw [mapComplement]
    rcases hsome : complementTable c with - | d
    · rw [hsome] at hc
      exact absurd hc (by simp)
    · rw [ih fun x hx => h x (List.mem_cons_of_mem c hx)]
      rw [List.map_cons, complChar, hsome]
      rfl

/-- The four valid nucleotides are exactly the keys of the complement table. -/
theorem complementTable_isSome_iff {c : Char} :
    (complementTable c).isSome = true ↔ c = 'A' ∨ c = 'C' ∨ c = 'G' ∨ c = 'T' := by
  rw [complementTable]
  split
  · simp_all
  · split
    · simp_all
    · split
      · simp_all
      · split
        · simp_all
        · simp_all

/-- Complementing a valid nucleotide yields a valid nucleotide. -/
theorem complChar_valid {c : Char} (h : c = 'A' ∨ c = 'C' ∨ c = 'G' ∨ c = 'T') :
    complChar c = 'A' ∨ complChar c = 'C' ∨ complChar c = 'G' ∨ complChar c = 'T' := by
  rcases h with rfl | rfl | rfl | rfl <;> decide

/-- Complementing is an involution on valid nucleotides. -/
theorem complChar_involution {c : Char} (h : c = 'A' ∨ c = 'C' ∨ c = 'G' ∨ c = 'T') :
    complChar (complChar c) = c := by
  rcases h with rfl | rfl | rfl | rfl <;> decide

/-- C2: `reverse_complement("ATGX")` fails, but with the raw unmapped-lookup
failure (Python's `KeyError('X')`, here the looked-up key as the error
value), not with an explicit named `InvalidNucleotide` error; the unknown
symbol is neither substituted nor dropped, since the comprehension aborts at
the first unmapped base of the reversed sequence. -/
theorem c2_invalid_symbol_keyerror :
    reverse_complement "ATGX".toList = Except.error 'X' := rfl

/-- C3 counterexample: with `min_gene_len = 1` the claimed minimum reported
length `minGeneLen + 2 = 3` is never attained: no input sequence and no
remaining parameters produce an accepted interval of reported length 3,
because every accepted interval has `e - s + 1 = (stopPos - startPos) + 3`
with `stopPos - startPos ≥ 1`. -/
theorem c3_counterexample :
    ¬ ∃ (s : List Char) (maxd mgap : Int) (out : List (Int × Int)) (g : Int × Int),
        predict_genes s 1 maxd mgap = some out ∧ g ∈ out ∧ g.2 - g.1 + 1 = 1 + 2 := by
  rintro ⟨s, maxd, mgap, out, g, h, hg, hlen⟩
  obtain ⟨a, b, hgene, hab, -, -, hmgl⟩ := predict_genes_sound h g hg
  rw [hgene] at hlen
  dsimp only at hlen
  omega

/-- C3 (amended): the acceptance test compares the 0-based gap
`stopPos - startPos` against `minGeneLen` while the reported interval is
`[startPos + 1, stopPos + 3]`, so every accepted interval has reported length
`e - s + 1` equal to the gap plus 3: a multiple of 3 that is at least
`minGeneLen + 3` (not `minGeneLen + 2`, which is never attained). -/
theorem c3_reported_length {s : List Char} {mgl maxd mgap : Int}
    {out : List (Int × Int)} (_hmgl : 0 < mgl)
    (h : predict_genes s mgl maxd mgap = some out) :
    ∀ g ∈ out, (3 : Int) ∣ (g.2 - g.1 + 1) ∧ mgl + 3 ≤ g.2 - g.1 + 1 ∧
      g.2 - g.1 + 1 ≠ mgl + 2 := by
  intro g hg
  obtain ⟨a, b, hgene, hab, -, hmod, hmgl'⟩ := predict_genes_sound h g hg
  rw [hgene]
  dsimp only
  constructor
  · omega
  · omega

/-- C3 witness: on `seqTwoGenes` with `min_gene_len = 3` the accepted
interval `[21, 26]` has reported length 6 = minGeneLen + 3, a multiple of 3. -/
theorem c3_witness :
    (3 : Int) ∣ (((21 : Int), (26 : Int)).2 - ((21 : Int), (26 : Int)).1 + 1) ∧
      3 + 3 ≤ ((21 : Int), (26 : Int)).2 - ((21 : Int), (26 : Int)).1 + 1 ∧
      ((21 : Int), (26 : Int)).2 - ((21 : Int), (26 : Int)).1 + 1 ≠ 3 + 2 := by
  have h : predict_genes seqTwoGenes 3 10 0 = some [(21, 26), (42, 47)] := by decide
  exact c3_reported_length (by norm_num) h (21, 26) (by simp)

/-- C4: `find_stop` returns the first stop-codon occurrence at position
`≥ start` whose offset from `start` is a multiple of 3 — skipping, not
returning, every earlier out-of-frame occurrence — and returns `none`
exactly when no in-frame occurrence exists. -/
theorem c4_find_stop_first_in_frame (s : List Char) (start : Nat) :
    (∀ p, find_stop s start = some p ↔
        start ≤ p ∧ stopMatchAt s p = true ∧ (p - start) % 3 = 0 ∧
          ∀ q, start ≤ q → q < p → stopMatchAt s q = true → (q - start) % 3 ≠ 0) ∧
      (find_stop s start = none ↔
        ∀ q, start ≤ q → stopMatchAt s q = true → (q - start) % 3 ≠ 0) := by
  constructor
  · intro p
    constructor
    · intro h
      obtain ⟨h1, h2, h3, h4⟩ := find_stop_eq_some h
      refine ⟨h1, h2, h3, fun q hq hqp hstop hmod => ?_⟩
      exact absurd (h4 q hq hstop hmod) (by omega)
    · rintro ⟨h1, h2, h3, h4⟩
      rcases hf : find_stop s start with - | p'
      · exact absurd h3 (find_stop_eq_none hf p h1 h2)
      · obtain ⟨g1, g2, g3, g4⟩ := find_stop_eq_some hf
        have hle : p' ≤ p := g4 p h1 h2 h3
        rcases Nat.eq_or_lt_of_le hle with rfl | hlt
        · rfl
        · exact absurd g3 (h4 p' g1 hlt g2)
  · constructor
    · exact find_stop_eq_none
    · intro hall
      rcases hf : find_stop s start with - | p'
      · rfl
      · obtain ⟨g1, g2, g3, -⟩ := find_stop_eq_some hf
        exact absurd g3 (hall p' g1 g2)

/-- C6: every interval `[s, e]` produced by a scan with `minGeneLen > 0`
satisfies the GeneInterval invariant: `e > s`, `(e - s + 1) % 3 == 0` and
`e - s + 1 ≥ minGeneLen`. -/
theorem c6_interval_invariant {s : List Char} {mgl maxd mgap : Int}
    {out : List (Int × Int)} (_hmgl : 0 < mgl)
    (h : predict_genes s mgl maxd mgap = some out) :
    ∀ g ∈ out, g.1 < g.2 ∧ (3 : Int) ∣ (g.2 - g.1 + 1) ∧ mgl ≤ g.2 - g.1 + 1 := by
  intro g hg
  obtain ⟨a, b, hgene, hab, -, hmod, hmgl'⟩ := predict_genes_sound h g hg
  rw [hgene]
  dsimp only
  refine ⟨by omega, by omega, by omega⟩

/-- C6 witness: the scan on `seqTwoGenes` with `min_gene_len = 3` accepts
`[42, 47]`, which satisfies the interval invariant. -/
theorem c6_witness :
    ((42 : Int), (47 : Int)).1 < ((42 : Int), (47 : Int)).2 ∧
      (3 : Int) ∣ (((42 : Int), (47 : Int)).2 - ((42 : Int), (47 : Int)).1 + 1) ∧
      3 ≤ ((42 : Int), (47 : Int)).2 - ((42 : Int), (47 : Int)).1 + 1 := by
  have h : predict_genes seqTwoGenes 3 10 0 = some [(21, 26), (42, 47)] := by decide
  exact c6_interval_invariant (by norm_num) h (42, 47) (by simp)

/-- C8: with non-negative parameters the scan cursor strictly increases on
every loop iteration (by 1 on rejection, to `stopPos + 3 + minGap` on
acceptance), so `predict_genes` terminates on every input within its
`length + 2` iteration budget. -/
theorem c8_termination {s : List Char} {mgl maxd mgap : Int}
    (_h1 : 0 ≤ mgl) (_h2 : 0 ≤ maxd) (h3 : 0 ≤ mgap) :
    (∀ (pos pos' : Int) (g : Option (Int × Int)),
        predictStep s mgl maxd mgap pos = some (pos', g) → pos < pos') ∧
      ∃ out, predict_genes s mgl maxd mgap = some out :=
  ⟨fun _ _ _ h => predictStep_lt h3 h, predict_genes_total h3⟩

/-- C8 witness: with the CLI default parameters the scan of `seqATG`
terminates. -/
theorem c8_witness : ∃ out, predict_genes seqATG 50 16 40 = some out :=
  (c8_termination (by norm_num) (by norm_num) (by norm_num)).2

/-- C10: with `max_shine_dalgarno_distance ≤ 9` the motif window
`[start - maxDist, start - 6)` is shorter than the shortest Shine-Dalgarno
alternative (length 4), or the negative-window guard fires, so
`has_shine_dalgarno` is false for every sequence and start position, and
`predict_genes` returns the empty list on every sequence for any remaining
parameters. -/
theorem c10_short_shine_window {maxd : Int} (h : maxd ≤ 9) :
    (∀ (s : List Char) (start : Nat), has_shine_dalgarno s start maxd = false) ∧
      ∀ (s : List Char) (mgl mgap : Int), predict_genes s mgl maxd mgap = some [] := by
  refine ⟨fun s start => has_shine_dalgarno_of_short h, fun s mgl mgap => ?_⟩
  exact predictLoop_no_accept (fun a _ => has_shine_dalgarno_of_short h) (by push_cast; omega)

/-- C10 witness: at the boundary value `maxDist = 9`, the motif search fails
on `seqTwoGenes` at start position 20 (which has a motif in range for
`maxDist = 10`), and the scan of `seqTwoGenes` predicts nothing. -/
theorem c10_witness :
    has_shine_dalgarno seqTwoGenes 20 9 = false ∧
      predict_genes seqTwoGenes 3 9 0 = some [] :=
  ⟨(c10_short_shine_window (by norm_num)).1 seqTwoGenes 20,
    (c10_short_shine_window (by norm_num)).2 seqTwoGenes 3 0⟩

/-- C7: `has_shine_dalgarno` returns false whenever the window start
`start - maxDist` is negative; consequently on `"ATGAAATAG"` — whose only
start-codon match is at position 0 — no candidate is ever accepted and
`predict_genes` returns the empty list for every parameter combination. -/
theorem c7_negative_window_guard :
    (∀ (s : List Char) (start : Nat) (maxDist : Int),
        (start : Int) - maxDist < 0 → has_shine_dalgarno s start maxDist = false) ∧
      ∀ mgl maxd mgap : Int, predict_genes seqATG mgl maxd mgap = some [] := by
  constructor
  · intro s start maxDist hneg
    rw [has_shine_dalgarno]
    split
    · rfl
    case isFalse hguard => exact absurd hneg hguard
  · intro mgl maxd mgap
    have hns : ∀ a : Nat, startMatchAt seqATG a = true →
        has_shine_dalgarno seqATG a maxd = false := by
      intro a ha
      have hlen := startMatchAt_length ha
      have h9 : seqATG.length = 9 := by decide
      have ha7 : a < 7 := by omega
      have ha0 : a = 0 := by
        interval_cases a <;> revert ha <;> decide
      subst ha0
      exact has_shine_dalgarno_of_small_start (by norm_num)
    exact predictLoop_no_accept hns (by push_cast; omega)

/-- C7 witness: with the CLI default `maxDist = 16`, the motif check at
start position 0 of `"ATGAAATAG"` is false (window start is negative) and
the prediction on `"ATGAAATAG"` is empty. -/
theorem c7_witness :
    has_shine_dalgarno seqATG 0 16 = false ∧
      predict_genes seqATG 50 16 40 = some [] :=
  ⟨c7_negative_window_guard.1 seqATG 0 16 (by norm_num),
    c7_negative_window_guard.2 50 16 40⟩

/-- C9: `reverse_complement` is an involution on sequences over
`{A, C, G, T}`: it succeeds, and applying it to the result gives back the
original sequence. -/
theorem c9_involution (s : List Char)
    (hvalid : ∀ c ∈ s, c = 'A' ∨ c = 'C' ∨ c = 'G' ∨ c = 'T') :
    ∃ t, reverse_complement s = Except.ok t ∧ reverse_complement t = Except.ok s := by
  have hsome : ∀ c ∈ s.reverse, (complementTable c).isSome = true := by
    intro c hc
    exact complementTable_isSome_iff.mpr (hvalid c (List.mem_reverse.mp hc))
  have h1 : reverse_complement s = Except.ok (s.reverse.map complChar) :=
    mapComplement_eq_ok hsome
  refine ⟨s.reverse.map complChar, h1, ?_⟩
  have h2 : (s.reverse.map complChar).reverse = s.map complChar := by
    rw [← List.map_reverse, List.reverse_reverse]
  rw [reverse_complement, h2]
  have hsome2 : ∀ c ∈ s.map complChar, (complementTable c).isSome = true := by
    intro c hc
    rcases List.mem_map.mp hc with ⟨d, hd, rfl⟩
    exact complementTable_isSome_iff.mpr (complChar_valid (hvalid d hd))
  rw [mapComplement_eq_ok hsome2, List.map_map]
  have h3 : s.map (complChar ∘ complChar) = s.map id := by
    apply List.map_congr_left
    intro c hc
    exact complChar_involution (hvalid c hc)
  rw [h3, List.map_id]

/-- C9 witness: the round trip on `"ACGT"`. -/
theorem c9_witness :
    ∃ t, reverse_complement "ACGT".toList = Except.ok t ∧
      reverse_complement t = Except.ok "ACGT".toList :=
  c9_involution "ACGT".toList (by decide)

/-- C5 counterexample: the claim quantifies over all parameter values, but
with `min_gap = -1` (accepted by the CLI's `type=int`) the single-strand
scan of `seqOverlap` returns `[21, 26]` and `[26, 31]`, two consecutive
intervals that overlap at position 26. -/
theorem c5_counterexample :
    predict_genes seqOverlap 3 10 (-1) = some [(21, 26), (26, 31)] ∧
      ¬ List.Chain' (fun a b : Int × Int => a.2 < b.1) [((21 : Int), (26 : Int)), (26, 31)] := by
  constructor
  · decide
  · intro h
    rw [List.chain'_cons] at h
    have h2 : (26 : Int) < 26 := h.1
    omega

/-- C5 (amended): for every sequence and parameter values with
`min_gap ≥ 0`, consecutive intervals of a single-strand scan have strictly
increasing starts, do not overlap, and are separated by a gap
`s2 - e1 - 1 ≥ minGap`. -/
theorem c5_strand_invariants {s : List Char} {mgl maxd mgap : Int} (hmgap : 0 ≤ mgap)
    {out : List (Int × Int)} (h : predict_genes s mgl maxd mgap = some out) :
    List.Chain' (stepRel mgap) out :=
  predict_genes_chain hmgap h

/-- C5 witness: the two genes accepted on `seqTwoGenes` with `min_gap = 0`
satisfy the chain invariant. -/
theorem c5_witness : List.Chain' (stepRel 0) [((21 : Int), (26 : Int)), (42, 47)] := by
  have h : predict_genes seqTwoGenes 3 10 0 = some [(21, 26), (42, 47)] := by decide
  exact c5_strand_invariants (by norm_num) h

/-- C1 counterexample: `main` sorts only the remapped reverse-strand genes
(`genes_cor.sort()`) and then concatenates `genes + genes_cor` without
sorting the concatenation, so on the self-reverse-complementary
`seqPalindrome` the final output is `[[35, 40], [1, 6]]`, whose consecutive
starts decrease. -/
theorem c1_counterexample :
    mainGenes seqPalindrome 3 10 0 = some [(35, 40), (1, 6)] ∧
      ¬ List.Chain' (fun a b : Int × Int => a.1 ≤ b.1) [((35 : Int), (40 : Int)), (1, 6)] := by
  constructor
  · decide
  · intro h
    rw [List.chain'_cons] at h
    have h2 : (35 : Int) ≤ 1 := h.1
    omega

/-- C1 (amended): for `min_gap ≥ 0` the final output list is the
concatenation of the forward-strand genes with the remapped reverse-strand
genes sorted ascending by start; each of the two segments has non-decreasing
consecutive start positions, but the list as a whole need not. -/
theorem c1_two_sorted_segments {s : List Char} {mgl maxd mgap : Int} (hmgap : 0 ≤ mgap)
    {out : List (Int × Int)} (h : mainGenes s mgl maxd mgap = some out) :
    ∃ fwd rev : List (Int × Int), out = fwd ++ rev ∧
      List.Chain' (fun a b : Int × Int => a.1 ≤ b.1) fwd ∧
      List.Chain' (fun a b : Int × Int => a.1 ≤ b.1) rev := by
  rw [mainGenes] at h
  split at h
  · exact absurd h (by simp)
  next genes hgenes =>
    split at h
    · exact absurd h (by simp)
    next sRc hrc =>
      split at h
      · exact absurd h (by simp)
      next genesRc hrcg =>
        injection h with h
        refine ⟨genes, _, h.symm, ?_, ?_⟩
        · exact (predict_genes_chain hmgap hgenes).imp fun a b hab => le_of_lt hab.1
        · have hs := List.sorted_insertionSort pairLexLe
            (genesRc.map (remapReverse (s.length : Int)))
          refine (List.Pairwise.chain' hs).imp fun a b hab => ?_
          rcases hab with hlt | ⟨heq, -⟩
          · exact le_of_lt hlt
          · exact le_of_eq heq

/-- C1 witness: on `seqPalindrome` the two segments of the output
`[[35, 40], [1, 6]]` are each sorted by start. -/
theorem c1_witness :
    ∃ fwd rev : List (Int × Int),
      [((35 : Int), (40 : Int)), (1, 6)] = fwd ++ rev ∧
        List.Chain' (fun a b : Int × Int => a.1 ≤ b.1) fwd ∧
        List.Chain' (fun a b : Int × Int => a.1 ≤ b.1) rev := by
  have h : mainGenes seqPalindrome 3 10 0 = some [(35, 40), (1, 6)] := by decide
  exact c1_two_sorted_segments (by norm_num) h
